import Mathlib

set_option maxRecDepth 100000

/-!
Verification of `src/infra/saving_fee_updater.py`.

The script fetches the ETH/USD price over HTTP, converts a 1-dollar amount
into wei with Python float arithmetic (`int(usd_amount / eth_price_usd * 10**18)`),
and then, for each configured chain, signs and submits an `editFees(0, fee)`
transaction, catching any per-chain exception.

The embedding has two parts:

* an exact model of the arithmetic of `usd_to_wei`.  Python floats are IEEE-754
  binary64 values; `u / p` produces the binary64 value nearest to the exact
  quotient (ties to even), `* 10**18` multiplies by the exactly representable
  binary64 value `10^18` and rounds the exact product the same way, and `int(x)`
  truncates toward zero.  The model computes this rounding exactly on integer
  numerator/denominator pairs (no floating point in Lean); it covers the normal
  finite range of binary64, which is where every quantity of this script lives
  (subnormal underflow and overflow to infinity are not modelled).

* a step model of the effectful skeleton: environment reads, the price request,
  and the per-chain submission pipeline, with every fallible step driven by an
  explicit oracle (`ChainWorld`), and the `try/except` of the main loop embedded
  as per-iteration error absorption.
-/

/-! ### Binary64 rounding, exactly, on integer pairs -/

/-- Fuel-indexed binary length: `bitlenAux fuel n` counts how many times `n`
can be halved before reaching `0`, provided `n ≤ fuel`.  Written with a bare
`Nat.rec` so that it unfolds lazily (one step per halving) in the kernel. -/
def bitlenAux : ℕ → ℕ → ℕ := fun fuel =>
  Nat.rec (motive := fun _ => ℕ → ℕ) (fun _ => 0)
    (fun _ ih n => if n = 0 then 0 else ih (n / 2) + 1) fuel

/-- Binary length of `n`: the unique `L` with `2^(L-1) ≤ n < 2^L` (and `0` for `n = 0`). -/
def bitlen (n : ℕ) : ℕ := bitlenAux n n

/-- Round the nonnegative rational `a / b` to the nearest integer, ties to even
(the IEEE-754 default rounding used by every CPython float operation). -/
def rneN (a b : ℕ) : ℕ :=
  if 2 * (a % b) < b then a / b
  else if b < 2 * (a % b) then a / b + 1
  else if (a / b) % 2 = 0 then a / b else a / b + 1

/-- Binade exponent of the positive rational `a / b`: the unique `e : ℤ` with
`2^e ≤ a/b < 2^(e+1)`. -/
def rexpN (a b : ℕ) : ℤ :=
  if b * 2 ^ ((bitlen a : ℤ) - (bitlen b : ℤ)).toNat ≤
      a * 2 ^ (-((bitlen a : ℤ) - (bitlen b : ℤ))).toNat then
    (bitlen a : ℤ) - (bitlen b : ℤ)
  else (bitlen a : ℤ) - (bitlen b : ℤ) - 1

/-- Binary64 rounding of the positive rational `a / b`: returns the rounded
significand `m` (with `2^52 ≤ m ≤ 2^53`) and the binade exponent `e`; the
rounded value is `m * 2^(e-52)`. -/
def flPosN (a b : ℕ) : ℕ × ℤ :=
  (rneN (a * 2 ^ ((52 : ℤ) - rexpN a b).toNat) (b * 2 ^ (-((52 : ℤ) - rexpN a b)).toNat),
    rexpN a b)

/-- Numerator/denominator pair of `m * 2^(e-52) * 10^18`, the exact product of a
binary64 value with the (exactly representable) binary64 number `10^18`. -/
def mulPow18 (me : ℕ × ℤ) : ℕ × ℕ :=
  (me.1 * 10 ^ 18 * 2 ^ (me.2 - 52).toNat, 2 ^ (52 - me.2).toNat)

/-- Truncation toward zero (= floor, on nonnegative values) of the binary64
value `m * 2^(e-52)`; this is Python's `int(x)` for `x ≥ 0`. -/
def truncFl (me : ℕ × ℤ) : ℕ :=
  me.1 * 2 ^ (me.2 - 52).toNat / 2 ^ (52 - me.2).toNat

/-- The full positive-input pipeline of `usd_to_wei`, on exact integer pairs:
`u = a/b > 0`, `p = c/d > 0`, result `int(fl64(fl64(u / p) * 10^18))`. -/
def usdToWeiPos (a b c d : ℕ) : ℕ :=
  truncFl (flPosN (mulPow18 (flPosN (a * d) (b * c))).1 (mulPow18 (flPosN (a * d) (b * c))).2)

/-! ### Python-level outcomes -/

/-- Exception classes that the script (or the libraries it calls) can raise.
In CPython, `ZeroDivisionError` is a subclass of `ArithmeticError`, not of
`ValueError`. -/
inductive PyExc where
  | httpError (status : ℕ)
  | keyError (key : String)
  | zeroDivisionError
  | typeError (msg : String)
  | runtimeError (msg : String)
  | web3Error (msg : String)
deriving DecidableEq

/-- Model of `usd_to_wei(usd_amount, eth_price_usd)`:
`eth_value = usd_amount / eth_price_usd; return int(eth_value * 10**18)`.
Division by zero raises `ZeroDivisionError`; otherwise the float computation
is exact binary64 rounding on the absolute value, with the sign restored at the
end (binary64 rounding and `int` truncation are both odd functions).
There is no check of any kind against a negative price. -/
def usd_to_wei (usd_amount eth_price_usd : ℚ) : Except PyExc ℤ :=
  if eth_price_usd = 0 then .error .zeroDivisionError
  else if usd_amount = 0 then .ok 0
  else if 0 < usd_amount.num * eth_price_usd.num then
    .ok ((usdToWeiPos usd_amount.num.natAbs usd_amount.den
      eth_price_usd.num.natAbs eth_price_usd.den : ℕ) : ℤ)
  else
    .ok (-((usdToWeiPos usd_amount.num.natAbs usd_amount.den
      eth_price_usd.num.natAbs eth_price_usd.den : ℕ) : ℤ))

/-! ### Price fetch -/

/-- Abstraction of the CoinGecko HTTP response: the status code, and the value
at `json()["ethereum"]["usd"]` when that path exists and is numeric. -/
structure HttpResponse where
  status : ℕ
  ethereumUsd : Option ℚ

/-- Model of `requests.Response.raise_for_status`: raises `HTTPError` exactly
for status codes in `[400, 600)`. -/
def raise_for_status (resp : HttpResponse) : Except PyExc Unit :=
  if 400 ≤ resp.status ∧ resp.status < 600 then .error (.httpError resp.status) else .ok ()

/-- Model of `get_eth_price_usd`: one GET, `raise_for_status`, then
`resp.json()["ethereum"]["usd"]` (a `KeyError` if the path is absent). -/
def get_eth_price_usd (resp : HttpResponse) : Except PyExc ℚ :=
  match raise_for_status resp with
  | .error e => .error e
  | .ok _ =>
    match resp.ethereumUsd with
    | some p => .ok p
    | none => .error (.keyError "ethereum")

/-! ### Configuration -/

/-- The process environment: `os.getenv` returns `none` for an absent name. -/
def Env : Type := String → Option String

/-- Model of `PRIVATE_KEY = os.getenv("PRIVATE_KEY")`: no validation, absent
values silently become `None`. -/
def PRIVATE_KEY (env : Env) : Option String := env "PRIVATE_KEY"

/-- Model of `ACCOUNT_ADDRESS = os.getenv("ACCOUNT_ADDRESS")`. -/
def ACCOUNT_ADDRESS (env : Env) : Option String := env "ACCOUNT_ADDRESS"

/-- Per-chain configuration entry: the literal RPC URL and the contract address
read from the environment (possibly absent). -/
structure ChainCfg where
  rpc : String
  address : Option String
deriving DecidableEq

/-- Model of the `CONTRACTS` table.  The RPC endpoints are hardcoded string
literals in the source; only the contract addresses come from the environment
(`CONTRACT_BASE`, `CONTRACT_CELO`).  Python dicts iterate in insertion order,
hence an ordered association list. -/
def CONTRACTS (env : Env) : List (String × ChainCfg) :=
  [("base", ⟨"https://mainnet.base.org", env "CONTRACT_BASE"⟩),
   ("celo", ⟨"https://rpc.api.lisk.com", env "CONTRACT_CELO"⟩)]

/-! ### Per-chain submission -/

/-- Encoded call data; the ABI has the single function
`editFees(uint256 _joinFee, uint256 _savingFee)`. -/
inductive CallData where
  | editFees (joinFee savingFee : ℤ)
deriving DecidableEq

/-- The transaction dict built by `build_transaction`: recipient, call data, and
the fields `{"chainId": ..., "gas": 200000, "gasPrice": ..., "nonce": ...}`. -/
structure Txn where
  toAddr : String
  data : CallData
  chainId : ℕ
  gas : ℕ
  gasPrice : ℕ
  nonce : ℕ
deriving DecidableEq

/-- A locally signed transaction: the signing key together with the payload. -/
structure SignedTx where
  key : String
  txn : Txn
deriving DecidableEq

/-- Oracle for one chain's remote behaviour: the outcome of each fallible
RPC/library step of `update_saving_fee`, in source order. -/
structure ChainWorld where
  connected : Bool
  checksum : Except PyExc String
  nonce : Except PyExc ℕ
  chainId : Except PyExc ℕ
  gasPrice : Except PyExc ℕ
  sendResult : Except PyExc String
  receipt : Except PyExc ℕ

/-- Model of `Web3.to_checksum_address`: raises on `None` (the address was not
in the environment); on a string, the library outcome is the oracle's. -/
def to_checksum_address (w : ChainWorld) (addr : Option String) : Except PyExc String :=
  match addr with
  | none => .error (.typeError "to_checksum_address expects a string")
  | some _ => w.checksum

/-- Model of `w3.eth.get_transaction_count(ACCOUNT_ADDRESS)`: raises when the
account address is `None`, otherwise the chain answers via the oracle. -/
def get_transaction_count (w : ChainWorld) (account : Option String) : Except PyExc ℕ :=
  match account with
  | none => .error (.typeError "account address is None")
  | some _ => w.nonce

/-- Model of `w3.eth.account.sign_transaction(txn, private_key=PRIVATE_KEY)`:
raises when the key is `None`; otherwise signing is local and pure. -/
def sign_transaction (txn : Txn) (private_key : Option String) : Except PyExc SignedTx :=
  match private_key with
  | none => .error (.typeError "private key is None")
  | some k => .ok ⟨k, txn⟩

/-- Observable console/network events of one run, in order. -/
inductive Event where
  | httpGet (url : String)
  | summary (price : ℚ) (fee : ℤ)
  | rpcProbe (chain : String)
  | txSent (chain : String) (signed : SignedTx) (hash : String)
  | txConfirmed (chain : String) (block : ℕ)
  | chainError (chain : String) (e : PyExc)
deriving DecidableEq

/-- Model of `update_saving_fee(chain_name, rpc_url, contract_addr, saving_fee_wei)`,
step for step in source order: connectivity probe (`w3.is_connected()`, raising
`RuntimeError` when false), `to_checksum_address`, nonce lookup, transaction
build (chain id and gas price from the chain, `gas=200000` fixed, call data
`editFees(0, saving_fee_wei)`), local signing with the module-level
`PRIVATE_KEY`, broadcast (whose hash is printed immediately), then blocking
receipt wait (whose block number is printed).  Returns the events printed so
far and the exception, if one escaped. -/
def update_saving_fee (w : ChainWorld) (private_key account : Option String)
    (chain_name : String) (contract_addr : Option String) (saving_fee_wei : ℤ) :
    List Event × Option PyExc :=
  if w.connected = false then
    ([.rpcProbe chain_name],
      some (.runtimeError ("Could not connect to " ++ chain_name ++ " RPC")))
  else
    match to_checksum_address w contract_addr with
    | .error e => ([.rpcProbe chain_name], some e)
    | .ok csAddr =>
      match get_transaction_count w account with
      | .error e => ([.rpcProbe chain_name], some e)
      | .ok nonce =>
        match w.chainId with
        | .error e => ([.rpcProbe chain_name], some e)
        | .ok cid =>
          match w.gasPrice with
          | .error e => ([.rpcProbe chain_name], some e)
          | .ok gp =>
            match sign_transaction
                ⟨csAddr, .editFees 0 saving_fee_wei, cid, 200000, gp, nonce⟩ private_key with
            | .error e => ([.rpcProbe chain_name], some e)
            | .ok signed =>
              match w.sendResult with
              | .error e => ([.rpcProbe chain_name], some e)
              | .ok h =>
                match w.receipt with
                | .error e => ([.rpcProbe chain_name, .txSent chain_name signed h], some e)
                | .ok blk =>
                  ([.rpcProbe chain_name, .txSent chain_name signed h,
                    .txConfirmed chain_name blk], none)

/-- The `try/except` body of one loop iteration: whatever the submission
printed, followed by the `[chain] Error: e` line when an exception was caught.
The exception never escapes the iteration. -/
def handleChain (r : List Event × Option PyExc) (chain : String) : List Event :=
  r.1 ++ (match r.2 with | none => [] | some e => [.chainError chain e])

/-- The `for chain, cfg in CONTRACTS.items()` loop with per-iteration
`try/except`. -/
def chainLoop (submit : String → ChainCfg → List Event × Option PyExc) :
    List (String × ChainCfg) → List Event
  | [] => []
  | (c, cfg) :: rest => handleChain (submit c cfg) c ++ chainLoop submit rest

/-- URL of the single price GET. -/
def coingecko_url : String := "https://api.coingecko.com/api/v3/simple/price"

/-- Model of the `__main__` block: fetch the price, convert `1` USD to wei,
print the summary, then run the per-chain loop.  A failure of the price fetch
or of the conversion is uncaught: the run stops there (second component
`some e`) with nothing but the GET performed.  The loop itself cannot raise. -/
def main_run (env : Env) (resp : HttpResponse) (w : String → ChainWorld) :
    List Event × Option PyExc :=
  match get_eth_price_usd resp with
  | .error e => ([.httpGet coingecko_url], some e)
  | .ok eth_price =>
    match usd_to_wei 1 eth_price with
    | .error e => ([.httpGet coingecko_url], some e)
    | .ok saving_fee_wei =>
      ([.httpGet coingecko_url, .summary eth_price saving_fee_wei] ++
        chainLoop (fun chain cfg =>
          update_saving_fee (w chain) (PRIVATE_KEY env) (ACCOUNT_ADDRESS env)
            chain cfg.address saving_fee_wei)
          (CONTRACTS env), none)

/-- Process exit code: `0` when the script runs to completion, `1` when an
uncaught exception terminates it. -/
def exit_code (r : List Event × Option PyExc) : ℕ :=
  match r.2 with
  | none => 0
  | some _ => 1

/-! ### Concrete fixtures used by witnesses and counterexamples -/

/-- An environment defining every variable the script reads. -/
def envAll : Env := fun _ => some "0xconfigured"

/-- An environment in which `CONTRACT_BASE` is absent and everything else is set. -/
def env0 : Env := fun name => if name = "CONTRACT_BASE" then none else some "0xconfigured"

/-- A successful price response: HTTP 200, `{"ethereum": {"usd": 2000}}`. -/
def resp0 : HttpResponse := ⟨200, some 2000⟩

/-- A server-error price response with no usable body. -/
def resp500 : HttpResponse := ⟨500, none⟩

/-- A chain on which every step succeeds. -/
def okWorld : ChainWorld :=
  ⟨true, .ok "0xChecksummed", .ok 7, .ok 8453, .ok 1000000, .ok "0xhash", .ok 123⟩

/-- A chain whose RPC endpoint is unreachable. -/
def failWorld : ChainWorld :=
  ⟨false, .ok "0xChecksummed", .ok 7, .ok 8453, .ok 1000000, .ok "0xhash", .ok 123⟩

/-- The transaction the success fixture builds: checksum address from
`okWorld`, call data `editFees(0, fee(2000))`, chain id, fixed gas, gas price,
nonce. -/
def txn0 : Txn := ⟨"0xChecksummed", .editFees 0 500000000000000, 8453, 200000, 1000000, 7⟩

/-- A concrete submission function for the loop-isolation witness: the base
chain raises, the celo chain succeeds. -/
def submit0 : String → ChainCfg → List Event × Option PyExc := fun c _ =>
  if c = "base" then
    ([.rpcProbe "base"], some (.runtimeError "Could not connect to base RPC"))
  else
    ([.rpcProbe "celo", .txSent "celo" ⟨"0xconfigured", txn0⟩ "0xhash",
      .txConfirmed "celo" 123], none)

/-! ### Proof-side idealisation of the rounding primitive -/

/-- Round-to-nearest-integer, ties to even, on `ℚ` — the same computation as
`rneN`, phrased with `Int.floor` for proving; `rneN_eq_rneQ` bridges the two. -/
def rneQ (x : ℚ) : ℤ :=
  if 2 * (x - ⌊x⌋) < 1 then ⌊x⌋
  else if 1 < 2 * (x - ⌊x⌋) then ⌊x⌋ + 1
  else if ⌊x⌋ % 2 = 0 then ⌊x⌋ else ⌊x⌋ + 1

/-- Value of a significand/exponent pair as a rational: `m * 2^(e-52)`. -/
def feVal (me : ℕ × ℤ) : ℚ := (me.1 : ℚ) * (2 : ℚ) ^ (me.2 - 52)

/-! ## Theorems -/

/-! ### Loop structure -/

/-- The per-chain loop distributes over list append. -/
theorem chainLoop_append (submit : String → ChainCfg → List Event × Option PyExc)
    (l1 l2 : List (String × ChainCfg)) :
    chainLoop submit (l1 ++ l2) = chainLoop submit l1 ++ chainLoop submit l2 := by
  induction l1 with
  | nil => rfl
  | cons hd tl ih =>
    obtain ⟨c, cfg⟩ := hd
    simp [chainLoop, ih]

/-- C3: with at least two configured chains, a failure raised at any step of
one chain's submission is caught at per-chain granularity and logged with that
chain's name, and the loop still runs every other chain's submission: the log
decomposes into the untouched contributions of the chains before, the failing
chain's events followed by its error line, and the untouched contributions of
the chains after. -/
theorem chain_failure_isolated
    (submit : String → ChainCfg → List Event × Option PyExc)
    (chains pre post : List (String × ChainCfg)) (name : String) (cfg : ChainCfg) (e : PyExc)
    (hlen : 2 ≤ chains.length)
    (hsplit : chains = pre ++ (name, cfg) :: post)
    (hfail : (submit name cfg).2 = some e) :
    chainLoop submit chains =
      chainLoop submit pre ++ ((submit name cfg).1 ++ [.chainError name e]) ++
        chainLoop submit post := by
  subst hsplit
  rw [chainLoop_append]
  simp [chainLoop, handleChain, hfail]

/-- Witness for C3: base fails with a connection error, celo still runs. -/
theorem chain_failure_isolated_witness :
    chainLoop submit0 (CONTRACTS envAll) =
      chainLoop submit0 [] ++
        ((submit0 "base" ⟨"https://mainnet.base.org", some "0xconfigured"⟩).1 ++
          [.chainError "base" (.runtimeError "Could not connect to base RPC")]) ++
        chainLoop submit0 [("celo", ⟨"https://rpc.api.lisk.com", some "0xconfigured"⟩)] :=
  chain_failure_isolated submit0 (CONTRACTS envAll) []
    [("celo", ⟨"https://rpc.api.lisk.com", some "0xconfigured"⟩)] "base"
    ⟨"https://mainnet.base.org", some "0xconfigured"⟩
    (.runtimeError "Could not connect to base RPC") (by decide) rfl rfl

/-! ### Price-fetch failure aborts the run -/

/-- C4: an error HTTP status (4xx/5xx, exactly what
`requests.raise_for_status` treats as non-success) makes the price fetch raise
without any retry, and the run aborts before the loop: the only event is the
single GET, and in particular no RPC probe is ever issued to any chain. -/
theorem http_error_aborts_before_rpc (env : Env) (resp : HttpResponse)
    (w : String → ChainWorld) (h4 : 400 ≤ resp.status) (h6 : resp.status < 600) :
    main_run env resp w = ([.httpGet coingecko_url], some (.httpError resp.status)) ∧
    ∀ chain, Event.rpcProbe chain ∉ (main_run env resp w).1 := by
  have hmain : main_run env resp w =
      ([.httpGet coingecko_url], some (.httpError resp.status)) := by
    unfold main_run get_eth_price_usd raise_for_status
    rw [if_pos ⟨h4, h6⟩]
  refine ⟨hmain, fun chain => ?_⟩
  rw [hmain]
  simp

/-- Witness for C4: a 500 response aborts the run with only the GET performed. -/
theorem http_error_aborts_before_rpc_witness :
    main_run envAll resp500 (fun _ => okWorld) =
      ([.httpGet coingecko_url], some (.httpError 500)) ∧
    ∀ chain, Event.rpcProbe chain ∉ (main_run envAll resp500 (fun _ => okWorld)).1 :=
  http_error_aborts_before_rpc envAll resp500 (fun _ => okWorld) (by decide) (by decide)

/-! ### Exit code -/

/-- C8: whenever the run reaches the per-chain loop (price fetch and fee
conversion succeeded), the process exits with code 0, no matter what any
chain's submission does — per-chain errors are absorbed by the loop and never
escalate. -/
theorem exit_code_zero_on_loop_completion (env : Env) (resp : HttpResponse)
    (w : String → ChainWorld) (price : ℚ) (fee : ℤ)
    (hprice : get_eth_price_usd resp = .ok price)
    (hfee : usd_to_wei 1 price = .ok fee) :
    exit_code (main_run env resp w) = 0 := by
  simp only [main_run, hprice, hfee, exit_code]

/-- Witness for C8: both chains fail to connect, yet the exit code is 0. -/
theorem exit_code_zero_on_loop_completion_witness :
    exit_code (main_run envAll resp0 (fun _ => failWorld)) = 0 :=
  exit_code_zero_on_loop_completion envAll resp0 (fun _ => failWorld)
    2000 500000000000000 rfl rfl

/-! ### Configuration reads -/

/-- C7 counterexample: in an environment that maps every variable to "X", the
loaded RPC endpoints are still the hardcoded literals, not "X" — so the RPC
endpoint is not read from the process environment. -/
theorem rpc_not_from_env :
    (CONTRACTS (fun _ => some "X")).map (fun c => c.2.rpc) =
      ["https://mainnet.base.org", "https://rpc.api.lisk.com"] ∧
    "https://mainnet.base.org" ≠ "X" ∧ "https://rpc.api.lisk.com" ≠ "X" :=
  ⟨rfl, by decide, by decide⟩

/-- C7 (amended): for each configured chain only the contract address is read
from the environment (`CONTRACT_BASE`, `CONTRACT_CELO`); the RPC endpoint is a
hardcoded constant, identical under any two environments. -/
theorem contracts_env_reads (env env' : Env) :
    (CONTRACTS env).map (fun c => (c.1, c.2.rpc)) =
      (CONTRACTS env').map (fun c => (c.1, c.2.rpc)) ∧
    (CONTRACTS env).map (fun c => c.2.address) =
      [env "CONTRACT_BASE", env "CONTRACT_CELO"] :=
  ⟨rfl, rfl⟩

/-! ### The fee computation at the reference point -/

/-- C9: with the price API returning 2000 and `usd_amount = 1`, the computed
fee is exactly 500000000000000 wei (the float round-off happens to vanish at
this input: the binary64 product rounds to exactly 5e14). -/
theorem fee_at_price_2000 : usd_to_wei 1 2000 = .ok 500000000000000 := rfl

/-! ### Float rounding breaks the exact-floor claim -/

/-- C1 counterexample: at `u = 1`, `p = 3` the code returns 333333333333333312
(the binary64 evaluation of `1/3 * 10**18`, truncated), while the exact value
`floor((1/3) * 10^18)` is 333333333333333333; the two differ. -/
theorem usd_to_wei_not_exact_floor :
    usd_to_wei 1 3 = .ok 333333333333333312 ∧
    (⌊((1 : ℚ) / 3) * 10 ^ 18⌋ : ℤ) = 333333333333333333 ∧
    (333333333333333312 : ℤ) ≠ 333333333333333333 := by
  refine ⟨rfl, ?_, by decide⟩
  rw [Int.floor_eq_iff]
  constructor <;> norm_num

/-- C2 counterexample: at `u = 1`, `p = -2000` the function raises nothing at
all: it happily returns the negative fee -500000000000000.  No `ValueError` is
involved for any `p ≤ 0` (for `p = 0` Python raises `ZeroDivisionError`, which
is not a `ValueError`). -/
theorem usd_to_wei_neg_price_no_error :
    usd_to_wei 1 (-2000) = .ok (-500000000000000) := rfl

/-! ### Where events in the loop can come from -/

/-- Any event of one handled iteration is either an event of the submission
itself or the caught-error line tagged with that chain's name. -/
theorem mem_handleChain {x : Event} {r : List Event × Option PyExc} {c : String}
    (h : x ∈ handleChain r c) : x ∈ r.1 ∨ ∃ e, x = .chainError c e := by
  unfold handleChain at h
  rcases List.mem_append.1 h with h | h
  · exact .inl h
  · right
    cases hr : r.2 with
    | none => rw [hr] at h; simp at h
    | some e => rw [hr] at h; simp at h; exact ⟨e, h⟩

/-- Any event of the loop comes from the handled iteration of some configured
chain. -/
theorem mem_chainLoop {x : Event} {submit : String → ChainCfg → List Event × Option PyExc}
    {l : List (String × ChainCfg)} (h : x ∈ chainLoop submit l) :
    ∃ c cfg, (c, cfg) ∈ l ∧ x ∈ handleChain (submit c cfg) c := by
  induction l with
  | nil => simp [chainLoop] at h
  | cons hd tl ih =>
    obtain ⟨c, cfg⟩ := hd
    rcases List.mem_append.1 (by simpa [chainLoop] using h) with h' | h'
    · exact ⟨c, cfg, by simp, h'⟩
    · obtain ⟨c', cfg', hmem, hx⟩ := ih h'
      exact ⟨c', cfg', by simp [hmem], hx⟩

/-- Every `txSent` event a submission can emit carries the transaction built
two lines earlier, whose call data is `editFees(0, saving_fee_wei)`. -/
theorem update_txSent_data {w : ChainWorld} {pk acct : Option String} {cn : String}
    {addr : Option String} {fee : ℤ} {c : String} {s : SignedTx} {h : String}
    (hmem : Event.txSent c s h ∈ (update_saving_fee w pk acct cn addr fee).1) :
    s.txn.data = CallData.editFees 0 fee := by
  unfold update_saving_fee at hmem
  repeat' split at hmem
  all_goals cases pk <;> simp_all [sign_transaction]
  all_goals rename_i heq
  all_goals subst heq
  all_goals rfl

/-- C6: on every chain, any transaction the run broadcasts encodes a call to
`editFees` with `joinFee = 0` and `savingFee` equal to the computed
smallest-unit fee. -/
theorem txSent_editFees_zero_join (env : Env) (resp : HttpResponse) (w : String → ChainWorld)
    (price : ℚ) (fee : ℤ) (chain : String) (s : SignedTx) (hash : String)
    (hprice : get_eth_price_usd resp = .ok price)
    (hfee : usd_to_wei 1 price = .ok fee)
    (hmem : Event.txSent chain s hash ∈ (main_run env resp w).1) :
    s.txn.data = CallData.editFees 0 fee := by
  simp only [main_run, hprice, hfee] at hmem
  rcases List.mem_append.1 hmem with hx | hx
  · simp at hx
  · obtain ⟨c, cfg, _, hx⟩ := mem_chainLoop hx
    rcases mem_handleChain hx with hx | ⟨e, hx⟩
    · exact update_txSent_data hx
    · simp at hx

/-- Witness for C6: the fully successful run at price 2000 broadcasts the
transaction `txn0`, whose call data is `editFees(0, 500000000000000)`. -/
theorem txSent_editFees_zero_join_witness :
    (⟨"0xconfigured", txn0⟩ : SignedTx).txn.data = CallData.editFees 0 500000000000000 :=
  txSent_editFees_zero_join envAll resp0 (fun _ => okWorld) 2000 500000000000000
    "base" ⟨"0xconfigured", txn0⟩ "0xhash" rfl rfl (by decide)

/-! ### Missing configuration is not checked -/

/-- C5 counterexample: with `CONTRACT_BASE` absent from the environment, the
run does not fail with any configuration error: it performs the price GET and
the base RPC probe (network activity), only then hits a per-chain `TypeError`
that is caught, and still finishes with no uncaught exception. -/
theorem missing_config_no_early_failure :
    env0 "CONTRACT_BASE" = none ∧
    (main_run env0 resp0 (fun _ => okWorld)).2 = none ∧
    Event.httpGet coingecko_url ∈ (main_run env0 resp0 (fun _ => okWorld)).1 ∧
    Event.rpcProbe "base" ∈ (main_run env0 resp0 (fun _ => okWorld)).1 ∧
    Event.chainError "base" (.typeError "to_checksum_address expects a string")
      ∈ (main_run env0 resp0 (fun _ => okWorld)).1 := by
  refine ⟨rfl, rfl, ?_, ?_, ?_⟩ <;> decide

/-- C5 (amended): there is no configuration validation at all — `os.getenv`
returns `None` for an absent variable and the script starts regardless; a
missing contract address only surfaces during that chain's submission, as a
caught `TypeError`, after the price GET and after that chain's RPC probe, and
the run keeps going. -/
theorem missing_contract_error_after_network (env : Env) (resp : HttpResponse)
    (w : String → ChainWorld) (price : ℚ) (fee : ℤ)
    (hmiss : env "CONTRACT_BASE" = none)
    (hprice : get_eth_price_usd resp = .ok price)
    (hfee : usd_to_wei 1 price = .ok fee)
    (hconn : (w "base").connected = true) :
    ∃ rest, main_run env resp w =
      ([.httpGet coingecko_url, .summary price fee, .rpcProbe "base",
        .chainError "base" (.typeError "to_checksum_address expects a string")] ++ rest,
        none) := by
  refine ⟨chainLoop (fun chain cfg =>
    update_saving_fee (w chain) (PRIVATE_KEY env) (ACCOUNT_ADDRESS env)
      chain cfg.address fee) [("celo", ⟨"https://rpc.api.lisk.com", env "CONTRACT_CELO"⟩)], ?_⟩
  simp only [main_run, hprice, hfee, CONTRACTS, hmiss, chainLoop, handleChain,
    update_saving_fee, to_checksum_address, hconn]
  simp

/-- Witness for C5's amended statement, at the concrete fixture. -/
theorem missing_contract_error_after_network_witness :
    ∃ rest, main_run env0 resp0 (fun _ => okWorld) =
      ([.httpGet coingecko_url, .summary 2000 500000000000000, .rpcProbe "base",
        .chainError "base" (.typeError "to_checksum_address expects a string")] ++ rest,
        none) :=
  missing_contract_error_after_network env0 resp0 (fun _ => okWorld) 2000 500000000000000
    rfl rfl rfl rfl

/-! ### Cast and power basics -/

/-- Equality of the natural-power and integer-power views of a power of two. -/
theorem natCast_two_pow (k : ℕ) : ((2 ^ k : ℕ) : ℚ) = (2 : ℚ) ^ (k : ℤ) := by
  push_cast
  rw [zpow_natCast]

/-- The two `toNat` shifts of a signed exponent recombine into `zpow`. -/
theorem pow2_toNat_div (s : ℤ) :
    (2 : ℚ) ^ s.toNat / (2 : ℚ) ^ (-s).toNat = (2 : ℚ) ^ s := by
  rcases le_or_lt 0 s with h | h
  · have h1 : (-s).toNat = 0 := Int.toNat_of_nonpos (by omega)
    have h2 : ((s.toNat : ℕ) : ℤ) = s := Int.toNat_of_nonneg h
    rw [h1, pow_zero, div_one, ← zpow_natCast, h2]
  · have h1 : s.toNat = 0 := Int.toNat_of_nonpos (by omega)
    have h2 : (((-s).toNat : ℕ) : ℤ) = -s := Int.toNat_of_nonneg (by omega)
    rw [h1, pow_zero, ← zpow_natCast, h2, zpow_neg, one_div, inv_inv]

/-- Floors of quotients of naturals are natural division. -/
theorem floor_natCast_div (a b : ℕ) : ⌊(a : ℚ) / (b : ℚ)⌋ = ((a / b : ℕ) : ℤ) := by
  have h := Rat.floor_intCast_div_natCast (a : ℤ) b
  have h2 : (((a : ℤ)) : ℚ) = (a : ℚ) := by norm_cast
  rw [h2] at h
  rw [h, Int.ofNat_tdiv]
  rfl

/-! ### Round-to-nearest-even on rationals -/

/-- The rounded value is the floor or the floor plus one. -/
theorem rneQ_cases (x : ℚ) : rneQ x = ⌊x⌋ ∨ rneQ x = ⌊x⌋ + 1 := by
  unfold rneQ
  split_ifs <;> simp

/-- Rounding never drops below the floor. -/
theorem floor_le_rneQ (x : ℚ) : ⌊x⌋ ≤ rneQ x := by
  rcases rneQ_cases x with h | h <;> omega

/-- Rounding never exceeds the floor plus one. -/
theorem rneQ_le_floor_add_one (x : ℚ) : rneQ x ≤ ⌊x⌋ + 1 := by
  rcases rneQ_cases x with h | h <;> omega

/-- Rounding a nonnegative value gives a nonnegative integer. -/
theorem rneQ_nonneg {x : ℚ} (hx : 0 ≤ x) : 0 ≤ rneQ x :=
  le_trans (Int.floor_nonneg.2 hx) (floor_le_rneQ x)

/-- Round-to-nearest-even is monotone. -/
theorem rneQ_mono {x y : ℚ} (h : x ≤ y) : rneQ x ≤ rneQ y := by
  have hf : ⌊x⌋ ≤ ⌊y⌋ := Int.floor_le_floor h
  rcases eq_or_lt_of_le hf with heq | hlt
  · have hfx : ((⌊x⌋ : ℤ) : ℚ) = ((⌊y⌋ : ℤ) : ℚ) := by exact_mod_cast heq
    have hfr : x - ((⌊x⌋ : ℤ) : ℚ) ≤ y - ((⌊x⌋ : ℤ) : ℚ) := by linarith
    unfold rneQ
    rw [← heq]
    rw [hfx] at hfr
    split_ifs <;> first | omega | linarith
  · calc rneQ x ≤ ⌊x⌋ + 1 := rneQ_le_floor_add_one x
      _ ≤ ⌊y⌋ := by omega
      _ ≤ rneQ y := floor_le_rneQ y

/-- The integer computation `rneN` agrees with the rational rounding `rneQ`. -/
theorem rneN_eq_rneQ (a b : ℕ) (hb : 0 < b) :
    (rneN a b : ℤ) = rneQ ((a : ℚ) / (b : ℚ)) := by
  have hbq : (0 : ℚ) < b := by exact_mod_cast hb
  have hfl : ⌊(a : ℚ) / (b : ℚ)⌋ = ((a / b : ℕ) : ℤ) := floor_natCast_div a b
  have hmod : (b : ℚ) * ((a / b : ℕ) : ℚ) + ((a % b : ℕ) : ℚ) = (a : ℚ) := by
    exact_mod_cast congrArg (fun t : ℕ => (t : ℚ)) (Nat.div_add_mod a b)
  have hfr : (a : ℚ) / b - (((a / b : ℕ) : ℤ) : ℚ) = ((a % b : ℕ) : ℚ) / b := by
    rw [eq_div_iff hbq.ne', sub_mul, div_mul_cancel₀ _ hbq.ne', Int.cast_natCast]
    nlinarith [hmod]
  have c1 : (2 * ((a : ℚ) / b - (((a / b : ℕ) : ℤ) : ℚ)) < 1) ↔ (2 * (a % b) < b) := by
    rw [hfr, ← mul_div_assoc, div_lt_one hbq]
    exact_mod_cast Iff.rfl
  have c2 : (1 < 2 * ((a : ℚ) / b - (((a / b : ℕ) : ℤ) : ℚ))) ↔ (b < 2 * (a % b)) := by
    rw [hfr, ← mul_div_assoc, lt_div_iff hbq, one_mul]
    exact_mod_cast Iff.rfl
  have c3 : (((a / b : ℕ) : ℤ) % 2 = 0) ↔ ((a / b) % 2 = 0) := by omega
  unfold rneN rneQ
  rw [hfl]
  simp only [c1, c2, c3]
  split_ifs <;> push_cast <;> ring

/-! ### Binary length bounds -/

/-- Unfolding: zero fuel. -/
theorem bitlenAux_zero_fuel (n : ℕ) : bitlenAux 0 n = 0 := rfl

/-- Unfolding: successor fuel. -/
theorem bitlenAux_succ (f n : ℕ) :
    bitlenAux (f + 1) n = if n = 0 then 0 else bitlenAux f (n / 2) + 1 := rfl

/-- Unfolding: value zero, any fuel. -/
theorem bitlenAux_zero (f : ℕ) : bitlenAux f 0 = 0 := by
  cases f
  · rfl
  · rw [bitlenAux_succ, if_pos rfl]

/-- With enough fuel, `bitlenAux` computes the binary length, which brackets
its argument between consecutive powers of two. -/
theorem bitlenAux_spec : ∀ fuel n, n ≤ fuel → 0 < n →
    ∃ L, bitlenAux fuel n = L + 1 ∧ 2 ^ L ≤ n ∧ n < 2 ^ (L + 1) := by
  intro fuel
  induction fuel with
  | zero => intro n hn h0; omega
  | succ f ih =>
    intro n hn h0
    rw [bitlenAux_succ, if_neg (by omega)]
    rcases Nat.lt_or_ge n 2 with h1 | h1
    · have hn1 : n = 1 := by omega
      subst hn1
      refine ⟨0, ?_, by norm_num, by norm_num⟩
      norm_num [bitlenAux_zero]
    · have h2 : 0 < n / 2 := Nat.div_pos h1 (by norm_num)
      have h3 : n / 2 ≤ f := by
        have := Nat.div_lt_self h0 (by norm_num : 1 < 2)
        omega
      obtain ⟨L, hL, hlo, hhi⟩ := ih (n / 2) h3 h2
      have hdm := Nat.div_add_mod n 2
      have hm2 : n % 2 < 2 := Nat.mod_lt n (by norm_num)
      refine ⟨L + 1, by rw [hL], ?_, ?_⟩
      · have hp : 2 ^ (L + 1) = 2 * 2 ^ L := by ring
        omega
      · have hp : 2 ^ (L + 1 + 1) = 2 * 2 ^ (L + 1) := by ring
        omega

/-- The binary length of a positive natural brackets it between powers of two. -/
theorem bitlen_spec (n : ℕ) (h : 0 < n) :
    ∃ L, bitlen n = L + 1 ∧ 2 ^ L ≤ n ∧ n < 2 ^ (L + 1) :=
  bitlenAux_spec n n le_rfl h

/-! ### Correctness of the binade exponent -/

/-- For a positive rational `a/b`, `rexpN a b` is its binade exponent:
`2^(rexpN a b) ≤ a/b < 2^(rexpN a b + 1)`. -/
theorem rexpN_spec (a b : ℕ) (ha : 0 < a) (hb : 0 < b) :
    (2 : ℚ) ^ rexpN a b ≤ (a : ℚ) / b ∧ (a : ℚ) / b < (2 : ℚ) ^ (rexpN a b + 1) := by
  obtain ⟨La, hLa, ha1, ha2⟩ := bitlen_spec a ha
  obtain ⟨Lb, hLb, hb1, hb2⟩ := bitlen_spec b hb
  have hbq : (0 : ℚ) < b := by exact_mod_cast hb
  have h2pos : ∀ t : ℤ, (0 : ℚ) < (2 : ℚ) ^ t := fun t => zpow_pos (by norm_num) t
  have hA1 : (2 : ℚ) ^ (La : ℤ) ≤ a := by
    rw [← natCast_two_pow]; exact_mod_cast ha1
  have hA2 : (a : ℚ) < 2 ^ ((La : ℤ) + 1) := by
    have he : (La : ℤ) + 1 = ((La + 1 : ℕ) : ℤ) := by push_cast; ring
    rw [he, ← natCast_two_pow]; exact_mod_cast ha2
  have hB1 : (2 : ℚ) ^ (Lb : ℤ) ≤ b := by
    rw [← natCast_two_pow]; exact_mod_cast hb1
  have hB2 : (b : ℚ) < 2 ^ ((Lb : ℤ) + 1) := by
    have he : (Lb : ℤ) + 1 = ((Lb + 1 : ℕ) : ℤ) := by push_cast; ring
    rw [he, ← natCast_two_pow]; exact_mod_cast hb2
  have hdval : (bitlen a : ℤ) - (bitlen b : ℤ) = (La : ℤ) - (Lb : ℤ) := by
    rw [hLa, hLb]; push_cast; ring
  have hq_hi : (a : ℚ) / b < 2 ^ (((La : ℤ) - (Lb : ℤ)) + 1) := by
    rw [div_lt_iff hbq]
    calc (a : ℚ) < 2 ^ ((La : ℤ) + 1) := hA2
      _ = 2 ^ (((La : ℤ) - (Lb : ℤ)) + 1) * 2 ^ (Lb : ℤ) := by
          rw [← zpow_add₀ (by norm_num : (2 : ℚ) ≠ 0)]
          congr 1
          ring
      _ ≤ 2 ^ (((La : ℤ) - (Lb : ℤ)) + 1) * b :=
          mul_le_mul_of_nonneg_left hB1 (h2pos _).le
  have hq_lo : (2 : ℚ) ^ (((La : ℤ) - (Lb : ℤ)) - 1) < (a : ℚ) / b := by
    rw [lt_div_iff hbq]
    calc (2 : ℚ) ^ (((La : ℤ) - (Lb : ℤ)) - 1) * b
        < 2 ^ (((La : ℤ) - (Lb : ℤ)) - 1) * 2 ^ ((Lb : ℤ) + 1) :=
          mul_lt_mul_of_pos_left hB2 (h2pos _)
      _ = 2 ^ (La : ℤ) := by
          rw [← zpow_add₀ (by norm_num : (2 : ℚ) ≠ 0)]
          congr 1
          ring
      _ ≤ a := hA1
  have hcond : (b * 2 ^ ((bitlen a : ℤ) - (bitlen b : ℤ)).toNat ≤
      a * 2 ^ (-((bitlen a : ℤ) - (bitlen b : ℤ))).toNat) ↔
      ((2 : ℚ) ^ ((bitlen a : ℤ) - (bitlen b : ℤ)) ≤ (a : ℚ) / b) := by
    rw [← pow2_toNat_div, div_le_div_iff (by positivity) hbq]
    rw [show (2 : ℚ) ^ ((bitlen a : ℤ) - (bitlen b : ℤ)).toNat * b =
        ((b * 2 ^ ((bitlen a : ℤ) - (bitlen b : ℤ)).toNat : ℕ) : ℚ) by push_cast; ring]
    rw [show (a : ℚ) * (2 : ℚ) ^ (-((bitlen a : ℤ) - (bitlen b : ℤ))).toNat =
        ((a * 2 ^ (-((bitlen a : ℤ) - (bitlen b : ℤ))).toNat : ℕ) : ℚ) by push_cast; ring]
    rw [Nat.cast_le]
  unfold rexpN
  split_ifs with hc
  · rw [hdval] at hc hcond ⊢
    exact ⟨hcond.1 hc, hq_hi⟩
  · rw [hdval] at hc hcond ⊢
    have hlt : (a : ℚ) / b < 2 ^ ((La : ℤ) - (Lb : ℤ)) := not_le.1 (fun hh => hc (hcond.2 hh))
    constructor
    · exact hq_lo.le
    · rw [show (La : ℤ) - (Lb : ℤ) - 1 + 1 = (La : ℤ) - (Lb : ℤ) by ring]
      exact hlt

/-- The binade exponent is monotone in the value. -/
theorem rexpN_le {a1 b1 a2 b2 : ℕ} (ha1 : 0 < a1) (hb1 : 0 < b1) (ha2 : 0 < a2)
    (hb2 : 0 < b2) (h : (a1 : ℚ) / b1 ≤ (a2 : ℚ) / b2) : rexpN a1 b1 ≤ rexpN a2 b2 := by
  by_contra hc
  push_neg at hc
  have k1 : (2 : ℚ) ^ (rexpN a2 b2 + 1) ≤ 2 ^ rexpN a1 b1 :=
    zpow_le_zpow_right₀ (by norm_num) (by omega)
  have s1 := rexpN_spec a1 b1 ha1 hb1
  have s2 := rexpN_spec a2 b2 ha2 hb2
  linarith [s1.1, s2.2]

/-! ### The rounded significand/exponent pair -/

/-- Cast form of the `rneN`/`rneQ` agreement. -/
theorem cast_rneN (A B : ℕ) (hB : 0 < B) :
    ((rneN A B : ℕ) : ℚ) = ((rneQ ((A : ℚ) / B) : ℤ) : ℚ) := by
  exact_mod_cast congrArg (fun t : ℤ => (t : ℚ)) (rneN_eq_rneQ A B hB)

/-- The sub-components of `flPosN`. -/
theorem flPosN_fst (a b : ℕ) :
    (flPosN a b).1 = rneN (a * 2 ^ ((52 : ℤ) - rexpN a b).toNat)
      (b * 2 ^ (-((52 : ℤ) - rexpN a b)).toNat) := rfl

/-- The exponent component of `flPosN` is the binade exponent. -/
theorem flPosN_snd (a b : ℕ) : (flPosN a b).2 = rexpN a b := rfl

/-- The value of the rounded pair is the rounded scaled quotient, rescaled. -/
theorem flPosN_val (a b : ℕ) (ha : 0 < a) (hb : 0 < b) :
    feVal (flPosN a b) =
      ((rneQ ((a : ℚ) / b * (2 : ℚ) ^ ((52 : ℤ) - rexpN a b)) : ℤ) : ℚ) *
        (2 : ℚ) ^ (rexpN a b - 52) := by
  have hbq : (0 : ℚ) < b := by exact_mod_cast hb
  have hB : 0 < b * 2 ^ (-((52 : ℤ) - rexpN a b)).toNat := by positivity
  unfold feVal
  rw [flPosN_fst, flPosN_snd, cast_rneN _ _ hB]
  congr 3
  push_cast
  rw [← div_mul_div_comm, pow2_toNat_div]

/-- Value bounds: the rounded value stays inside the binade (its upper end
included, for the carry case). -/
theorem flPosN_bounds (a b : ℕ) (ha : 0 < a) (hb : 0 < b) :
    (2 : ℚ) ^ rexpN a b ≤ feVal (flPosN a b) ∧
      feVal (flPosN a b) ≤ (2 : ℚ) ^ (rexpN a b + 1) := by
  obtain ⟨hlo, hhi⟩ := rexpN_spec a b ha hb
  have h2 : ∀ t : ℤ, (0 : ℚ) < (2 : ℚ) ^ t := fun t => zpow_pos (by norm_num) t
  have hxlo : (2 : ℚ) ^ (52 : ℤ) ≤ (a : ℚ) / b * (2 : ℚ) ^ ((52 : ℤ) - rexpN a b) := by
    calc (2 : ℚ) ^ (52 : ℤ) = 2 ^ rexpN a b * 2 ^ ((52 : ℤ) - rexpN a b) := by
          rw [← zpow_add₀ (by norm_num : (2 : ℚ) ≠ 0)]
          congr 1
          ring
      _ ≤ (a : ℚ) / b * 2 ^ ((52 : ℤ) - rexpN a b) :=
          mul_le_mul_of_nonneg_right hlo (h2 _).le
  have hxhi : (a : ℚ) / b * (2 : ℚ) ^ ((52 : ℤ) - rexpN a b) < (2 : ℚ) ^ (53 : ℤ) := by
    calc (a : ℚ) / b * 2 ^ ((52 : ℤ) - rexpN a b)
        < 2 ^ (rexpN a b + 1) * 2 ^ ((52 : ℤ) - rexpN a b) :=
          mul_lt_mul_of_pos_right hhi (h2 _)
      _ = 2 ^ (53 : ℤ) := by
          rw [← zpow_add₀ (by norm_num : (2 : ℚ) ≠ 0)]
          congr 1
          ring
  have hm_lo : (2 ^ 52 : ℤ) ≤ rneQ ((a : ℚ) / b * (2 : ℚ) ^ ((52 : ℤ) - rexpN a b)) := by
    refine le_trans ?_ (floor_le_rneQ _)
    rw [Int.le_floor]
    calc ((2 ^ 52 : ℤ) : ℚ) = (2 : ℚ) ^ (52 : ℤ) := by norm_num
      _ ≤ _ := hxlo
  have hm_hi : rneQ ((a : ℚ) / b * (2 : ℚ) ^ ((52 : ℤ) - rexpN a b)) ≤ (2 ^ 53 : ℤ) := by
    refine le_trans (rneQ_le_floor_add_one _) ?_
    have hfl : ⌊(a : ℚ) / b * (2 : ℚ) ^ ((52 : ℤ) - rexpN a b)⌋ < (2 ^ 53 : ℤ) := by
      rw [Int.floor_lt]
      calc (a : ℚ) / b * (2 : ℚ) ^ ((52 : ℤ) - rexpN a b) < (2 : ℚ) ^ (53 : ℤ) := hxhi
        _ = ((2 ^ 53 : ℤ) : ℚ) := by norm_num
    omega
  rw [flPosN_val a b ha hb]
  constructor
  · calc (2 : ℚ) ^ rexpN a b = 2 ^ (52 : ℤ) * 2 ^ (rexpN a b - 52) := by
          rw [← zpow_add₀ (by norm_num : (2 : ℚ) ≠ 0)]
          congr 1
          ring
      _ ≤ ((rneQ ((a : ℚ) / b * (2 : ℚ) ^ ((52 : ℤ) - rexpN a b)) : ℤ) : ℚ) *
            2 ^ (rexpN a b - 52) := by
          refine mul_le_mul_of_nonneg_right ?_ (h2 _).le
          calc (2 : ℚ) ^ (52 : ℤ) = ((2 ^ 52 : ℤ) : ℚ) := by norm_num
            _ ≤ _ := by exact_mod_cast hm_lo
  · calc ((rneQ ((a : ℚ) / b * (2 : ℚ) ^ ((52 : ℤ) - rexpN a b)) : ℤ) : ℚ) *
          2 ^ (rexpN a b - 52)
        ≤ ((2 ^ 53 : ℤ) : ℚ) * 2 ^ (rexpN a b - 52) := by
          refine mul_le_mul_of_nonneg_right ?_ (h2 _).le
          exact_mod_cast hm_hi
      _ = 2 ^ (53 : ℤ) * 2 ^ (rexpN a b - 52) := by norm_num
      _ = 2 ^ (rexpN a b + 1) := by
          rw [← zpow_add₀ (by norm_num : (2 : ℚ) ≠ 0)]
          congr 1
          ring

/-- Binary64 rounding of positive rationals is monotone in the value. -/
theorem flPosN_mono {a1 b1 a2 b2 : ℕ} (ha1 : 0 < a1) (hb1 : 0 < b1) (ha2 : 0 < a2)
    (hb2 : 0 < b2) (h : (a1 : ℚ) / b1 ≤ (a2 : ℚ) / b2) :
    feVal (flPosN a1 b1) ≤ feVal (flPosN a2 b2) := by
  have he := rexpN_le ha1 hb1 ha2 hb2 h
  have h2 : ∀ t : ℤ, (0 : ℚ) < (2 : ℚ) ^ t := fun t => zpow_pos (by norm_num) t
  rcases eq_or_lt_of_le he with heq | hlt
  · rw [flPosN_val a1 b1 ha1 hb1, flPosN_val a2 b2 ha2 hb2, ← heq]
    refine mul_le_mul_of_nonneg_right ?_ (h2 _).le
    have hmono : rneQ ((a1 : ℚ) / b1 * (2 : ℚ) ^ ((52 : ℤ) - rexpN a1 b1)) ≤
        rneQ ((a2 : ℚ) / b2 * (2 : ℚ) ^ ((52 : ℤ) - rexpN a1 b1)) :=
      rneQ_mono (mul_le_mul_of_nonneg_right h (h2 _).le)
    exact_mod_cast hmono
  · calc feVal (flPosN a1 b1) ≤ 2 ^ (rexpN a1 b1 + 1) := (flPosN_bounds a1 b1 ha1 hb1).2
      _ ≤ 2 ^ rexpN a2 b2 := zpow_le_zpow_right₀ (by norm_num) (by omega)
      _ ≤ feVal (flPosN a2 b2) := (flPosN_bounds a2 b2 ha2 hb2).1

/-- Values of pairs are never negative. -/
theorem feVal_nonneg (me : ℕ × ℤ) : 0 ≤ feVal me := by
  unfold feVal
  positivity

/-- A positive input has a positive rounded significand. -/
theorem flPosN_fst_pos (a b : ℕ) (ha : 0 < a) (hb : 0 < b) : 0 < (flPosN a b).1 := by
  by_contra hcon
  push_neg at hcon
  have h0 : (flPosN a b).1 = 0 := by omega
  have hval : feVal (flPosN a b) = 0 := by
    unfold feVal
    rw [h0]
    simp
  have hb1 := (flPosN_bounds a b ha hb).1
  rw [hval] at hb1
  exact absurd hb1 (not_le.2 (zpow_pos (by norm_num) _))

/-! ### The exact product with 10^18 and the final truncation -/

/-- The pair produced by `mulPow18` has value `feVal me * 10^18`. -/
theorem mulPow18_val (me : ℕ × ℤ) :
    (((mulPow18 me).1 : ℕ) : ℚ) / (((mulPow18 me).2 : ℕ) : ℚ) = feVal me * 10 ^ 18 := by
  unfold mulPow18 feVal
  push_cast
  rw [show (52 : ℤ) - me.2 = -(me.2 - 52) by ring]
  rw [mul_div_assoc, pow2_toNat_div]
  ring

/-- The denominator produced by `mulPow18` is positive. -/
theorem mulPow18_den_pos (me : ℕ × ℤ) : 0 < (mulPow18 me).2 := by
  unfold mulPow18
  positivity

/-- The numerator produced by `mulPow18` is positive when the significand is. -/
theorem mulPow18_num_pos (me : ℕ × ℤ) (h : 0 < me.1) : 0 < (mulPow18 me).1 := by
  unfold mulPow18
  exact Nat.mul_pos (Nat.mul_pos h (by norm_num)) (pow_pos (by norm_num) _)

/-- `truncFl` computes the floor of the pair's value. -/
theorem truncFl_eq_floor (me : ℕ × ℤ) : ((truncFl me : ℕ) : ℤ) = ⌊feVal me⌋ := by
  unfold truncFl
  rw [← floor_natCast_div (me.1 * 2 ^ (me.2 - 52).toNat) (2 ^ (52 - me.2).toNat)]
  congr 1
  unfold feVal
  push_cast
  rw [show (52 : ℤ) - me.2 = -(me.2 - 52) by ring]
  rw [mul_div_assoc, pow2_toNat_div]

/-- End-to-end monotonicity of the positive pipeline: a smaller exact quotient
gives a smaller fee. -/
theorem usdToWeiPos_le {a b c1 d1 c2 d2 : ℕ}
    (ha : 0 < a) (hb : 0 < b) (hc1 : 0 < c1) (hd1 : 0 < d1) (hc2 : 0 < c2) (hd2 : 0 < d2)
    (h : ((a * d2 : ℕ) : ℚ) / ((b * c2 : ℕ) : ℚ) ≤ ((a * d1 : ℕ) : ℚ) / ((b * c1 : ℕ) : ℚ)) :
    usdToWeiPos a b c2 d2 ≤ usdToWeiPos a b c1 d1 := by
  have s1 : feVal (flPosN (a * d2) (b * c2)) ≤ feVal (flPosN (a * d1) (b * c1)) :=
    flPosN_mono (Nat.mul_pos ha hd2) (Nat.mul_pos hb hc2)
      (Nat.mul_pos ha hd1) (Nat.mul_pos hb hc1) h
  have s2 : (((mulPow18 (flPosN (a * d2) (b * c2))).1 : ℕ) : ℚ) /
        (((mulPow18 (flPosN (a * d2) (b * c2))).2 : ℕ) : ℚ) ≤
      (((mulPow18 (flPosN (a * d1) (b * c1))).1 : ℕ) : ℚ) /
        (((mulPow18 (flPosN (a * d1) (b * c1))).2 : ℕ) : ℚ) := by
    rw [mulPow18_val, mulPow18_val]
    exact mul_le_mul_of_nonneg_right s1 (by positivity)
  have s3 : feVal (flPosN (mulPow18 (flPosN (a * d2) (b * c2))).1
        (mulPow18 (flPosN (a * d2) (b * c2))).2) ≤
      feVal (flPosN (mulPow18 (flPosN (a * d1) (b * c1))).1
        (mulPow18 (flPosN (a * d1) (b * c1))).2) :=
    flPosN_mono
      (mulPow18_num_pos _ (flPosN_fst_pos _ _ (Nat.mul_pos ha hd2) (Nat.mul_pos hb hc2)))
      (mulPow18_den_pos _)
      (mulPow18_num_pos _ (flPosN_fst_pos _ _ (Nat.mul_pos ha hd1) (Nat.mul_pos hb hc1)))
      (mulPow18_den_pos _) s2
  have s4 := Int.floor_le_floor s3
  rw [← truncFl_eq_floor, ← truncFl_eq_floor] at s4
  unfold usdToWeiPos
  exact_mod_cast s4

/-! ### The conversion on signed rational inputs -/

/-- On positive inputs, `usd_to_wei` succeeds with the positive-pipeline value. -/
theorem usd_to_wei_pos_eq (u p : ℚ) (hu : 0 < u) (hp : 0 < p) :
    usd_to_wei u p =
      .ok ((usdToWeiPos u.num.natAbs u.den p.num.natAbs p.den : ℕ) : ℤ) := by
  unfold usd_to_wei
  rw [if_neg hp.ne', if_neg hu.ne',
    if_pos (mul_pos (Rat.num_pos.2 hu) (Rat.num_pos.2 hp))]

/-- C1 (amended): for positive `u` and `p` the conversion always succeeds and
returns a non-negative integer; that integer is the truncation of the binary64
evaluation of `u / p * 10**18`, which can differ from the exact
`floor(u/p * 10^18)` (see the counterexample at `u = 1`, `p = 3`). -/
theorem usd_to_wei_pos_ok_nonneg (u p : ℚ) (hu : 0 < u) (hp : 0 < p) :
    ∃ n : ℤ, usd_to_wei u p = .ok n ∧ 0 ≤ n :=
  ⟨_, usd_to_wei_pos_eq u p hu hp, Int.natCast_nonneg _⟩

/-- Witness for C1's amended statement at `u = 1`, `p = 2000`. -/
theorem usd_to_wei_pos_ok_nonneg_witness :
    ∃ n : ℤ, usd_to_wei 1 2000 = .ok n ∧ 0 ≤ n :=
  usd_to_wei_pos_ok_nonneg 1 2000 (by norm_num) (by norm_num)

/-- C2 (amended): `usd_to_wei` does not validate the price.  At `p = 0` the
division raises `ZeroDivisionError` (not a `ValueError`), so no fee is
computed; for `p < 0` no exception is raised at all: the function returns a
non-positive fee and the run proceeds to the chain submissions with it. -/
theorem usd_to_wei_nonpos_price (u p : ℚ) (hu : 0 < u) :
    (p = 0 → usd_to_wei u p = .error .zeroDivisionError) ∧
    (p < 0 → ∃ n : ℤ, usd_to_wei u p = .ok n ∧ n ≤ 0) := by
  constructor
  · intro h
    unfold usd_to_wei
    rw [if_pos h]
  · intro h
    refine ⟨-((usdToWeiPos u.num.natAbs u.den p.num.natAbs p.den : ℕ) : ℤ), ?_, by omega⟩
    unfold usd_to_wei
    rw [if_neg h.ne, if_neg hu.ne',
      if_neg (not_lt.2 (mul_neg_of_pos_of_neg (Rat.num_pos.2 hu) (Rat.num_neg.2 h)).le)]

/-- Witness for C2's amended statement: the zero and negative price cases at
concrete inputs. -/
theorem usd_to_wei_nonpos_price_witness :
    usd_to_wei 1 0 = .error .zeroDivisionError ∧
    ∃ n : ℤ, usd_to_wei 1 (-2000) = .ok n ∧ n ≤ 0 :=
  ⟨(usd_to_wei_nonpos_price 1 0 (by norm_num)).1 rfl,
    (usd_to_wei_nonpos_price 1 (-2000) (by norm_num)).2 (by norm_num)⟩

/-! ### Antitonicity in the price -/

/-- A positive quotient of rationals in the pipeline's pair form. -/
theorem pair_div_eq (q r : ℚ) (hq : 0 < q) (hr : 0 < r) :
    ((q.num.natAbs * r.den : ℕ) : ℚ) / ((q.den * r.num.natAbs : ℕ) : ℚ) = q / r := by
  have hq' : ((q.num.natAbs : ℕ) : ℚ) = ((q.num : ℤ) : ℚ) := by
    rw [Int.cast_natAbs]
    exact_mod_cast abs_of_nonneg (Rat.num_pos.2 hq).le
  have hr' : ((r.num.natAbs : ℕ) : ℚ) = ((r.num : ℤ) : ℚ) := by
    rw [Int.cast_natAbs]
    exact_mod_cast abs_of_nonneg (Rat.num_pos.2 hr).le
  have hqden : ((q.den : ℕ) : ℚ) ≠ 0 := by
    exact_mod_cast q.den_nz
  have hrden : ((r.den : ℕ) : ℚ) ≠ 0 := by
    exact_mod_cast r.den_nz
  have hrnum : ((r.num : ℤ) : ℚ) ≠ 0 := by
    exact_mod_cast (Rat.num_pos.2 hr).ne'
  conv_rhs => rw [← Rat.num_div_den q, ← Rat.num_div_den r]
  push_cast
  rw [hq', hr']
  field_simp
  try ring

/-- C10: for a fixed positive usd amount, the computed fee is antitone in the
price: both conversions succeed and the fee at the higher price is at most the
fee at the lower price.  This holds through the float rounding because binary64
round-to-nearest and truncation are monotone. -/
theorem usd_to_wei_antitone_in_price (u p1 p2 : ℚ) (hu : 0 < u) (hp1 : 0 < p1)
    (hle : p1 ≤ p2) :
    ∃ n1 n2 : ℤ, usd_to_wei u p1 = .ok n1 ∧ usd_to_wei u p2 = .ok n2 ∧ n2 ≤ n1 := by
  have hp2 : 0 < p2 := lt_of_lt_of_le hp1 hle
  refine ⟨_, _, usd_to_wei_pos_eq u p1 hu hp1, usd_to_wei_pos_eq u p2 hu hp2, ?_⟩
  have hdiv : u / p2 ≤ u / p1 := by
    rw [div_le_div_iff hp2 hp1]
    exact mul_le_mul_of_nonneg_left hle hu.le
  have h : ((u.num.natAbs * p2.den : ℕ) : ℚ) / ((u.den * p2.num.natAbs : ℕ) : ℚ) ≤
      ((u.num.natAbs * p1.den : ℕ) : ℚ) / ((u.den * p1.num.natAbs : ℕ) : ℚ) := by
    rw [pair_div_eq u p2 hu hp2, pair_div_eq u p1 hu hp1]
    exact hdiv
  have key := usdToWeiPos_le (Int.natAbs_pos.2 (Rat.num_pos.2 hu).ne') u.pos
    (Int.natAbs_pos.2 (Rat.num_pos.2 hp1).ne') p1.pos
    (Int.natAbs_pos.2 (Rat.num_pos.2 hp2).ne') p2.pos h
  exact_mod_cast key

/-- Witness for C10 at `u = 1`, `p1 = 2000 ≤ p2 = 4000`. -/
theorem usd_to_wei_antitone_in_price_witness :
    ∃ n1 n2 : ℤ, usd_to_wei 1 2000 = .ok n1 ∧ usd_to_wei 1 4000 = .ok n2 ∧ n2 ≤ n1 :=
  usd_to_wei_antitone_in_price 1 2000 4000 (by norm_num) (by norm_num) (by norm_num)
